import Mathlib

/-!
# Verification of the genomic mutation/crossover engine

This file gives a shallow embedding, in Lean 4, of the core of the
`genomic` crate: the scalar mutation operators (uniform random walk for
integers and floats, fixed-bit-width two's-complement mutation), the
reorder (permutation) mutation wrapper, the `Mutator` and `Crossover`
traversal sessions with their swap-decision policies (`Uniform`,
`KPoint`, `Fixed`), and the top-level `crossover` entry point.

Modelling conventions:
* Machine integers are `Int` with explicit wrapping (`emod 2^w`) or
  saturation where the source relies on it; `f64` values that feed
  comparisons and range constructions are modelled as `ℚ` (the paths the
  theorems exercise only use exact operations: products with `0`,
  halving, comparisons).
* The RNG is an oracle: a stream of naturals together with a cursor.
  `gen_bool p` returns `false` when `p = 0`, `true` when `p = 1`, and
  otherwise an arbitrary stream-determined boolean; it fails (models a
  panic of `rand`) when `p` is outside `[0, 1]`.
* Fallible operations (`gen_range` on an empty range, failed
  assertions, `Bernoulli::new` on an invalid probability) return
  `Option`, with `none` modelling a panic.
* Integer arithmetic follows release-build semantics (wrapping), except
  for panics that fire in every build (empty `gen_range`, `clamp` with
  `min > max`, `Bernoulli::new` errors); the debug-only size-hint
  assertion of the `crossover` entry point is modelled by an explicit
  `debugAssertions` flag.
-/

namespace Genomic

/-- Oracle model of an RNG: an infinite stream of naturals and a cursor. -/
structure Rng where
  stream : Nat → Nat
  idx : Nat

/-- Draws one raw value from the stream and advances the cursor. -/
def Rng.next (r : Rng) : Nat × Rng :=
  (r.stream r.idx, ⟨r.stream, r.idx + 1⟩)

/-- Total Bernoulli sampler, used after the probability has been
validated: probability `0` never fires, probability `≥ 1` always fires,
anything in between is decided by the oracle stream. -/
def sampleBool (p : ℚ) (r : Rng) : Bool × Rng :=
  let (n, r') := r.next
  (if p ≤ 0 then false else if 1 ≤ p then true else n % 2 = 1, r')

/-- Model of `rand`'s `gen_bool p` / `Bernoulli::new(p)` + sample: panics
(returns `none`) when `p` is outside `[0, 1]`. -/
def genBool (p : ℚ) (r : Rng) : Option (Bool × Rng) :=
  if 0 ≤ p ∧ p ≤ 1 then some (sampleBool p r) else none

/-- Model of `gen_range(lo..=hi)` on integers: panics on an empty range,
otherwise returns a value in `[lo, hi]` chosen by the oracle. -/
def genRangeInclusive (lo hi : Int) (r : Rng) : Option (Int × Rng) :=
  if lo ≤ hi then
    let (n, r') := r.next
    some (lo + (n : Int) % (hi - lo + 1), r')
  else none

/-- Model of `gen_range(0..n)` on `usize`: panics when the range is
empty (`n = 0`). -/
def genRangeNat (n : Nat) (r : Rng) : Option (Nat × Rng) :=
  if n = 0 then none
  else
    let (m, r') := r.next
    some (m % n, r')

/-- Model of `gen_range(lo..hi)` on floats (here `ℚ`): panics unless
`lo < hi`, otherwise returns a value in the half-open interval chosen by
the oracle. -/
def genRangeQ (lo hi : ℚ) (r : Rng) : Option (ℚ × Rng) :=
  if lo < hi then
    let (n, r') := r.next
    some (lo + (hi - lo) / ((n : ℚ) + 2), r')
  else none

/-!
## Uniform random-walk mutation, floating point

Embeds the body of the `impl_uniform_float` macro
(`src/chromosome/uniform.rs` lines 59-88, and the identical
`mutate_with` of `src/wrapper/uniform.rs` lines 97-120): the window is
built with a half-open upper bound and sampled with `gen_range`.
-/

/-- Uniform random-walk mutation for float scalars.  Mirrors
`UniformCh<$type>::mutate` for `f32`/`f64`: compute
`range = (max - min) * rate`, `half_range = range / 2`, pick the window
and draw from it half-open. -/
def uniformFloatMutate (minB maxB value rate : ℚ) (rng : Rng) :
    Option (ℚ × Rng) :=
  let range := (maxB - minB) * rate
  let halfRange := range / 2
  if value - minB < halfRange then
    genRangeQ minB (minB + range) rng
  else if maxB - value < halfRange then
    genRangeQ (maxB - range) maxB rng
  else
    genRangeQ (max (value - halfRange) minB) (min (value + halfRange) maxB) rng

/-- A fixed concrete RNG used by witnesses: the all-zero stream. -/
def rng0 : Rng := ⟨fun _ => 0, 0⟩

/-!
## Uniform random-walk mutation, integers

Embeds the body of the `impl_uniform_int` macro
(`src/chromosome/uniform.rs` lines 26-57, and the identical
`mutate_with` of `src/wrapper/uniform.rs` lines 70-95).  The macro is
instantiated once per machine integer type; the embedding is
parametrised by the representable range of the type.  Arithmetic that
the source performs on the machine type wraps there in release builds
(`max - min`, the branch subtractions), which the model mirrors with an
explicit wrap; `saturating_add`/`saturating_sub` saturate at the type
bounds; the `(x as f64 * rate) as $type` cast truncates toward zero and
saturates.  (The `f64` rounding of the intermediate product is
abstracted to exact rational arithmetic.)
-/

/-- The representable range of a machine integer type. -/
structure IntTy where
  lo : Int
  hi : Int

/-- Number of representable values. -/
def IntTy.card (t : IntTy) : Int := t.hi - t.lo + 1

/-- Wrapping (release-build) arithmetic into the representable range. -/
def IntTy.wrap (t : IntTy) (x : Int) : Int := (x - t.lo) % t.card + t.lo

/-- `saturating_add`. -/
def IntTy.satAdd (t : IntTy) (a b : Int) : Int := max t.lo (min t.hi (a + b))

/-- `saturating_sub`. -/
def IntTy.satSub (t : IntTy) (a b : Int) : Int := max t.lo (min t.hi (a - b))

/-- Truncation toward zero of a rational, as Rust's float-to-int cast
does before saturating. -/
def ratTrunc (q : ℚ) : Int := if 0 ≤ q then ⌊q⌋ else -⌊-q⌋

/-- The `q as $type` saturating float-to-integer cast. -/
def IntTy.castSat (t : IntTy) (q : ℚ) : Int := max t.lo (min t.hi (ratTrunc q))

/-- Embeds `UniformCh<$type>::mutate` for machine integers: compute the
window width `range`, split it into `half_range_low`/`half_range_high`,
clamp the current value into `[min, max]` (the standard-library `clamp`
panics when `min > max`), pick the window and draw from it inclusively. -/
def uniformIntMutate (t : IntTy) (minB maxB value : Int) (rate : ℚ)
    (rng : Rng) : Option (Int × Rng) :=
  let range0 := t.wrap (maxB - minB)
  let range := t.castSat ((range0 : ℚ) * rate)
  let halfLow := Int.tdiv range 2
  let halfHigh := Int.tdiv range 2 + Int.tmod range 2
  if minB ≤ maxB then
    let value := max minB (min maxB value)
    if t.wrap (value - minB) ≤ halfLow then
      genRangeInclusive minB (min (t.satAdd minB range) maxB) rng
    else if t.wrap (maxB - value) ≤ halfHigh then
      genRangeInclusive (max (t.satSub maxB range) minB) maxB rng
    else
      genRangeInclusive (max (t.satSub value halfLow) minB)
        (min (t.satAdd value halfHigh) maxB) rng
  else none

/-!
## Fixed-bit-width mutation, signed integers

Embeds the body of the `impl_fixed_int` macro
(`src/chromosome/fixed.rs` lines 43-85, and the identical `mutate_with`
of `src/wrapper/fixed.rs` lines 53-90).  `w` is the native bit width of
the machine type, `bits` the declared conceptual width.  The native
value is an `Int`; `value ^= 1 << bit` is the two's-complement XOR
`xorBit`.  (For `bits = 0` the source's `self.bits - 1` wraps on `u8`
and the subsequent shift is an overflow; the claims only concern
`bits ≥ 1`, where Nat subtraction agrees with the source.)
-/

/-- Two's-complement representation of a native `w`-bit value. -/
def toUnsigned (w : Nat) (v : Int) : Nat := (v % (2 ^ w : Int)).toNat

/-- Signed reinterpretation of a `w`-bit pattern. -/
def ofUnsigned (w : Nat) (u : Nat) : Int :=
  if (u : Int) < 2 ^ (w - 1) then u else (u : Int) - 2 ^ w

/-- `value ^= 1 << i` on a `w`-bit two's-complement value. -/
def xorBit (w : Nat) (v : Int) (i : Nat) : Int :=
  ofUnsigned w (toUnsigned w v ^^^ 2 ^ i)

/-- The magnitude-bit loop of `impl_fixed_int`: one Bernoulli draw per
listed bit, flipping the bit when the draw fires. -/
def flipBits (w : Nat) (p : ℚ) : List Nat → Int → Rng → Int × Rng
  | [], v, rng => (v, rng)
  | i :: rest, v, rng =>
    let br := sampleBool p rng
    flipBits w p rest (if br.1 then xorBit w v i else v) br.2

/-- Embeds `FixedBits<$type>::mutate` for signed machine integers:
validate the Bernoulli probability `rate * 0.5`, clamp the value into
the conceptual `bits`-wide signed range when `bits` is narrower than the
native width, flip each of the low `bits - 1` magnitude bits with one
Bernoulli draw each, then with one more draw toggle the conceptual sign
bit (an XOR at native width, otherwise an add/subtract of
`2^(bits-1)`). -/
def fixedBitsMutateSigned (w bits : Nat) (value : Int) (rate : ℚ)
    (rng : Rng) : Option (Int × Rng) :=
  let p := rate * (1 / 2)
  if 0 ≤ p ∧ p ≤ 1 then
    let value₀ :=
      if bits ≠ w then
        max (-(2 ^ (bits - 1) : Int)) (min ((2 ^ (bits - 1) : Int) - 1) value)
      else value
    let vr := flipBits w p (List.range (bits - 1)) value₀ rng
    let br := sampleBool p vr.2
    let value₂ :=
      if br.1 then
        if bits = w then xorBit w vr.1 (bits - 1)
        else if vr.1 < 0 then vr.1 + 2 ^ (bits - 1)
        else vr.1 - 2 ^ (bits - 1)
      else vr.1
    some (value₂, br.2)
  else none

/-!
## Mutator session (`src/traverse.rs` lines 7-153)

The mutation session carries the rate and the RNG.  Only `multiply_rate`
is embedded in full (claim C9); a callback is modelled as an arbitrary
function on the session, which captures everything a `&mut Mutator`
borrow can do.
-/

/-- The mutation session: `Mutator { rate, rng }`. -/
structure Mutator where
  rate : ℚ
  rng : Rng

/-- Embeds `Mutator::multiply_rate` (`src/traverse.rs` lines 52-65):
compute `new_rate = (rate * factor).clamp(0.0, 1.0)`, swap it in, run the
callback, restore the saved rate. -/
def Mutator.multiplyRate (m : Mutator) (factor : ℚ) (cb : Mutator → Mutator) :
    Mutator :=
  let newRate := min (max (m.rate * factor) 0) 1
  let m₁ := cb { m with rate := newRate }
  { m₁ with rate := m.rate }

/-!
## Reorder (permutation) mutation wrapper (`src/wrapper/reorder.rs`)

`ReorderGenome::mutate_with` collects the element references in a
vector, computes the number of transposition swaps, and performs them.
`listSwap l i j` is the effect of the `split_at_mut`/`mem::swap` pair:
the contents at positions `i` and `j` are exchanged.
-/

/-- Exchange of the elements at positions `i` and `j` (out-of-range
indices leave the list unchanged; the source only reaches in-range
ones). -/
def listSwap (l : List α) (i j : Nat) : List α :=
  match l[i]?, l[j]? with
  | some a, some b => (l.set i b).set j a
  | _, _ => l

/-- One iteration of the swap loop of `ReorderGenome::mutate_with`
(`src/wrapper/reorder.rs` lines 31-44): draw `index_a` from `0..len` and
`index_b` from `0..len-1`, shift `index_b` past `index_a` (or reorder
the pair), then swap the two referenced slots. -/
def swapStep (l : List α) (rng : Rng) : Option (List α × Rng) :=
  match genRangeNat l.length rng with
  | none => none
  | some (a, rng₁) =>
    match genRangeNat (l.length - 1) rng₁ with
    | none => none
    | some (b, rng₂) =>
      let p := if a ≤ b then (a, b + 1) else (b, a)
      some (listSwap l p.1 p.2, rng₂)

/-- The swap loop, iterated `k` times. -/
def reorderSwaps (k : Nat) (l : List α) (rng : Rng) : Option (List α × Rng) :=
  match k with
  | 0 => some (l, rng)
  | k + 1 =>
    match swapStep l rng with
    | none => none
    | some (l', rng') => reorderSwaps k l' rng'

/-- Model of the `(... as f64 ...) as usize` cast: truncation toward
zero, saturating at `0` for negative inputs. -/
def ratToUsize (q : ℚ) : Nat := ⌊q⌋.toNat

/-- Embeds `ReorderGenome::mutate_with` (`src/wrapper/reorder.rs` lines
15-45): early return on an empty collection, then
`swaps = ((len - 1) * rate) as usize`, bumped to `1` when the rate is
positive but the count rounded to zero, then the swap loop. -/
def reorderMutate (l : List α) (rate : ℚ) (rng : Rng) : Option (List α × Rng) :=
  if l.length = 0 then some (l, rng)
  else
    let swaps := ratToUsize (((l.length : ℚ) - 1) * rate)
    let swaps := if 0 < rate ∧ swaps = 0 then 1 else swaps
    reorderSwaps swaps l rng

/-!
## Crossover session (`src/traverse.rs` lines 155-294) and entry point
(`src/lib.rs` lines 37-58)

A genome tree is built from the combinators the library offers: a scalar
leaf (`Crossover::chromosome`), an ordered sequence
(`Crossover::iter`, which zips the two sides to the shorter length), and
a group (`Crossover::group`).  Per the documented size-hint contract, a
group accounts for exactly one chromosome.

`CrossoverState` mirrors the private enum of the source; counters are
`u64`, so the subtraction feeding the `KPoint` rate wraps at `2^64`
(release semantics — from the entry point `swapped ≤ desired` and
`count = 0 ≤ length` always hold, so the wrap never fires on reachable
states).
-/

/-- Genome trees, as built from the traversal combinators. -/
inductive Genome where
  | leaf (v : Int)
  | seq (gs : List Genome)
  | group (g : Genome)

mutual

/-- `Genome::size_hint`: one per leaf, the sum over a sequence, and one
per group (the accounting the `group` documentation prescribes). -/
def Genome.sizeHint : Genome → Nat
  | .leaf _ => 1
  | .seq gs => sizeHintList gs
  | .group _ => 1

/-- Sum of the size hints of a sequence of genomes. -/
def sizeHintList : List Genome → Nat
  | [] => 0
  | g :: gs => g.sizeHint + sizeHintList gs

end

mutual

/-- Leaf values of a genome, in traversal order. -/
def Genome.leaves : Genome → List Int
  | .leaf v => [v]
  | .seq gs => leavesList gs
  | .group g => g.leaves

/-- Leaf values of a sequence of genomes. -/
def leavesList : List Genome → List Int
  | [] => []
  | g :: gs => g.leaves ++ leavesList gs

end

mutual

/-- Structural equality of shapes (same constructors, same sequence
lengths); two Rust values of one genome type always have the same shape
up to sequence lengths. -/
def sameShape : Genome → Genome → Bool
  | .leaf _, .leaf _ => true
  | .seq gs, .seq hs => sameShapeList gs hs
  | .group g, .group h => sameShape g h
  | _, _ => false

/-- Pointwise shape equality of two sequences of genomes. -/
def sameShapeList : List Genome → List Genome → Bool
  | [], [] => true
  | g :: gs, h :: hs => sameShape g h && sameShapeList gs hs
  | _, _ => false

end

/-- The private `CrossoverState` enum of `src/traverse.rs` lines
176-185. -/
inductive CrossoverState where
  | uniform (rate : ℚ)
  | kpoint (count length swapped desired : Nat)
  | fixed (b : Bool)
deriving DecidableEq

/-- The `count` field of a `KPoint` state (`0` for the other states). -/
def countOf : CrossoverState → Nat
  | .kpoint c _ _ _ => c
  | _ => 0

/-- Embeds `Crossover::should_flip` (`src/traverse.rs` lines 193-213).
`Uniform(rate)` draws `gen_bool(rate / 2)`.  `KPoint` computes
`rate = (desired - swapped) / (length - count)` (u64 subtractions, then
converted to float), and when `count < length` draws
`gen_bool(rate.min(1.0))`, incrementing `swapped` on success; the leaf
is flipped iff `swapped` is odd afterwards.  (The source computes the
rate before the guard; the value is unused when the guard fails, so the
model computes it under the guard.)  `Fixed(b)` returns `b` without
consuming randomness. -/
def shouldFlip : CrossoverState → Rng → Option (Bool × CrossoverState × Rng)
  | .uniform rate, rng =>
    match genBool (rate / 2) rng with
    | none => none
    | some (b, rng') => some (b, .uniform rate, rng')
  | .kpoint c l s d, rng =>
    if c < l then
      let rate : ℚ := (((((d : Int) - s) % 2 ^ 64 : Int)) : ℚ) /
        (((((l : Int) - c) % 2 ^ 64 : Int)) : ℚ)
      match genBool (min rate 1) rng with
      | none => none
      | some (b, rng') =>
        let s' := if b then s + 1 else s
        some (s' % 2 == 1, .kpoint c l s' d, rng')
    else some (s % 2 == 1, .kpoint c l s d, rng)
  | .fixed b, rng => some (b, .fixed b, rng)

mutual

/-- Embeds the crossover traversal: `Crossover::chromosome` swaps the
two leaves when `should_flip` fires; `Crossover::iter` zips the two
sequences to the shorter length, leaving extra elements untouched;
`Crossover::group` draws one decision from the enclosing policy and runs
the callback against a nested session holding `Fixed(decision)` and the
same RNG, discarding the nested session's state afterwards.  Mismatched
constructors cannot arise from two Rust values of one genome type and
are returned untouched. -/
def crossoverGo : Genome → Genome → CrossoverState → Rng →
    Option (Genome × Genome × CrossoverState × Rng)
  | .leaf a, .leaf b, st, rng =>
    match shouldFlip st rng with
    | none => none
    | some (f, st', rng') =>
      if f then some (.leaf b, .leaf a, st', rng')
      else some (.leaf a, .leaf b, st', rng')
  | .seq gs, .seq hs, st, rng =>
    match crossoverList gs hs st rng with
    | none => none
    | some (gs', hs', st', rng') => some (.seq gs', .seq hs', st', rng')
  | .group a, .group b, st, rng =>
    match shouldFlip st rng with
    | none => none
    | some (f, st', rng₁) =>
      match crossoverGo a b (.fixed f) rng₁ with
      | none => none
      | some (a', b', _, rng₂) => some (.group a', .group b', st', rng₂)
  | a, b, st, rng => some (a, b, st, rng)

/-- The zipped per-element crossover of `Crossover::iter`. -/
def crossoverList : List Genome → List Genome → CrossoverState → Rng →
    Option (List Genome × List Genome × CrossoverState × Rng)
  | g :: gs, h :: hs, st, rng =>
    match crossoverGo g h st rng with
    | none => none
    | some (g', h', st', rng') =>
      match crossoverList gs hs st' rng' with
      | none => none
      | some (gs', hs', st'', rng'') =>
        some (g' :: gs', h' :: hs', st'', rng'')
  | gs, hs, st, rng => some (gs, hs, st, rng)

end

/-- The public `CrossoverMethod` enum (`src/traverse.rs` lines
163-174). -/
inductive CrossoverMethod where
  | uniform (rate : ℚ)
  | kpoint (k : Nat)

/-- The `CrossoverMethod → CrossoverState` conversion performed by the
`crossover` entry point: `KPoint` starts with `count = 0`,
`length = left.size_hint()`, `swapped = 0`, `desired = k`. -/
def methodToState (m : CrossoverMethod) (lengthHint : Nat) : CrossoverState :=
  match m with
  | .uniform rate => .uniform rate
  | .kpoint k => .kpoint 0 lengthHint 0 k

/-- Embeds the `crossover` entry point (`src/lib.rs` lines 37-58):
`debug_assert_eq!` on the two size hints (active only when debug
assertions are compiled in), construction of the initial state from the
method and the left individual's size hint, then the traversal. -/
def crossoverFn (debugAssertions : Bool) (l r : Genome)
    (m : CrossoverMethod) (rng : Rng) : Option (Genome × Genome × Rng) :=
  if debugAssertions ∧ l.sizeHint ≠ r.sizeHint then none
  else
    match crossoverGo l r (methodToState m l.sizeHint) rng with
    | none => none
    | some (l', r', _, rng') => some (l', r', rng')

/-- Validity of the probability a method hands to `gen_bool`
(`gen_bool` accepts probabilities in `[0, 1]`, and `Uniform(rate)` draws
with probability `rate / 2`). -/
def methodValid : CrossoverMethod → Prop
  | .uniform rate => 0 ≤ rate ∧ rate ≤ 2
  | .kpoint _ => True

/-- Validity of the probability a state hands to `gen_bool`. -/
def stateValid : CrossoverState → Prop
  | .uniform rate => 0 ≤ rate ∧ rate ≤ 2
  | _ => True

end Genomic

namespace Genomic

/-!
## Theorems
-/

theorem ratToUsize_eq_natFloor (q : ℚ) : ratToUsize q = ⌊q⌋₊ :=
  Int.floor_toNat q

theorem get_cons_set_perm :
    ∀ (t : List α) (m : Nat) (a : α) (hm : m < t.length),
      List.Perm (t.get ⟨m, hm⟩ :: t.set m a) (a :: t) := by
  intro t
  induction t with
  | nil => intro m a hm; simp at hm
  | cons b t ih =>
    intro m a hm
    cases m with
    | zero => exact List.Perm.swap a b t
    | succ m =>
      have hm' : m < t.length := by simpa using hm
      show List.Perm (t.get ⟨m, hm'⟩ :: b :: t.set m a) (a :: b :: t)
      exact (List.Perm.swap b _ _).trans
        ((List.Perm.cons b (ih m a hm')).trans (List.Perm.swap a b t))

theorem listSwap_cons_succ (x : α) (t : List α) (i j : Nat) :
    listSwap (x :: t) (i + 1) (j + 1) = x :: listSwap t i j := by
  unfold listSwap
  rw [List.getElem?_cons_succ, List.getElem?_cons_succ]
  cases t[i]? <;> cases t[j]? <;> rfl

theorem listSwap_perm :
    ∀ (l : List α) (i j : Nat), i < j → j < l.length →
      List.Perm (listSwap l i j) l := by
  intro l
  induction l with
  | nil => intro i j _ hj; simp at hj
  | cons x t ih =>
    intro i j hij hj
    cases i with
    | zero =>
      cases j with
      | zero => exact absurd hij (lt_irrefl 0)
      | succ m =>
        have hm : m < t.length := by simpa using hj
        have hswap : listSwap (x :: t) 0 (m + 1) = t.get ⟨m, hm⟩ :: t.set m x := by
          unfold listSwap
          rw [List.getElem?_cons_succ, List.getElem?_cons_zero,
            List.getElem?_eq_getElem hm]
          rfl
        rw [hswap]
        exact get_cons_set_perm t m x hm
    | succ i' =>
      cases j with
      | zero => exact absurd hij (by omega)
      | succ m =>
        rw [listSwap_cons_succ]
        exact List.Perm.cons x (ih i' m (by omega) (by simpa using hj))

theorem genRangeNat_some {n v : Nat} {r r' : Rng}
    (h : genRangeNat n r = some (v, r')) : v < n := by
  unfold genRangeNat at h
  by_cases hn : n = 0
  · simp [hn] at h
  · simp only [hn, if_false, Rng.next] at h
    obtain ⟨hv, _⟩ := Prod.mk.injEq .. ▸ Option.some.injEq .. ▸ h
    have := Nat.mod_lt (r.stream r.idx) (Nat.pos_of_ne_zero hn)
    omega

theorem swapStep_two (l : List α) (rng : Rng) (h2 : 2 ≤ l.length) :
    ∃ i j rng', i < j ∧ j < l.length ∧
      swapStep l rng = some (listSwap l i j, rng') := by
  have h0 : l.length ≠ 0 := by omega
  have h1 : l.length - 1 ≠ 0 := by omega
  have hstep : swapStep l rng =
      some (listSwap l
        (if rng.stream rng.idx % l.length ≤
            rng.stream (rng.idx + 1) % (l.length - 1) then
          (rng.stream rng.idx % l.length,
            rng.stream (rng.idx + 1) % (l.length - 1) + 1)
         else
          (rng.stream (rng.idx + 1) % (l.length - 1),
            rng.stream rng.idx % l.length)).1
        (if rng.stream rng.idx % l.length ≤
            rng.stream (rng.idx + 1) % (l.length - 1) then
          (rng.stream rng.idx % l.length,
            rng.stream (rng.idx + 1) % (l.length - 1) + 1)
         else
          (rng.stream (rng.idx + 1) % (l.length - 1),
            rng.stream rng.idx % l.length)).2,
        ⟨rng.stream, rng.idx + 2⟩) := by
    simp only [swapStep, genRangeNat, h0, h1, if_false, Rng.next]
  have ha : rng.stream rng.idx % l.length < l.length :=
    Nat.mod_lt _ (Nat.pos_of_ne_zero h0)
  have hb : rng.stream (rng.idx + 1) % (l.length - 1) < l.length - 1 :=
    Nat.mod_lt _ (Nat.pos_of_ne_zero h1)
  by_cases hle : rng.stream rng.idx % l.length ≤
      rng.stream (rng.idx + 1) % (l.length - 1)
  · refine ⟨rng.stream rng.idx % l.length,
      rng.stream (rng.idx + 1) % (l.length - 1) + 1, ⟨rng.stream, rng.idx + 2⟩,
      by omega, by omega, ?_⟩
    rw [hstep, if_pos hle]
  · refine ⟨rng.stream (rng.idx + 1) % (l.length - 1),
      rng.stream rng.idx % l.length, ⟨rng.stream, rng.idx + 2⟩,
      by omega, ha, ?_⟩
    rw [hstep, if_neg hle]

theorem swapStep_perm {l l' : List α} {rng rng' : Rng}
    (h : swapStep l rng = some (l', rng')) : List.Perm l' l := by
  unfold swapStep at h
  split at h
  · cases h
  next a rng₁ hg1 =>
    split at h
    · cases h
    next b rng₂ hg2 =>
      simp only [Option.some.injEq, Prod.mk.injEq] at h
      obtain ⟨hl', -⟩ := h
      have ha := genRangeNat_some hg1
      have hb := genRangeNat_some hg2
      subst hl'
      by_cases hle : a ≤ b
      · rw [if_pos hle]
        exact listSwap_perm l a (b + 1) (by omega) (by omega)
      · rw [if_neg hle]
        exact listSwap_perm l b a (by omega) (by omega)

theorem reorderSwaps_multiset :
    ∀ (k : Nat) (l l' : List α) (rng rng' : Rng),
      reorderSwaps k l rng = some (l', rng') →
        Multiset.ofList l' = Multiset.ofList l := by
  intro k
  induction k with
  | zero =>
    intro l l' rng rng' h
    simp only [reorderSwaps, Option.some.injEq, Prod.mk.injEq] at h
    rw [h.1]
  | succ k ih =>
    intro l l' rng rng' h
    unfold reorderSwaps at h
    split at h
    · cases h
    next l₁ rng₁ hs =>
      have h₁ := ih l₁ l' rng₁ rng' h
      have h₂ : Multiset.ofList l₁ = Multiset.ofList l :=
        Multiset.coe_eq_coe.mpr (swapStep_perm hs)
      rw [h₁, h₂]

theorem shouldFlip_valid_some (st : CrossoverState) (rng : Rng)
    (h : stateValid st) :
    ∃ b st' rng', shouldFlip st rng = some (b, st', rng') ∧ stateValid st' := by
  cases st with
  | uniform rate =>
    obtain ⟨h0, h2⟩ := h
    have hg : genBool (rate / 2) rng = some (sampleBool (rate / 2) rng) := by
      unfold genBool
      rw [if_pos ⟨by positivity, by linarith⟩]
    refine ⟨(sampleBool (rate / 2) rng).1, .uniform rate,
      (sampleBool (rate / 2) rng).2, ?_, h0, h2⟩
    simp [shouldFlip, hg]
  | kpoint c l s d =>
    by_cases hcl : c < l
    · have hnum : (0 : ℚ) ≤ ((((d : Int) - s) % 2 ^ 64 : Int) : ℚ) := by
        exact_mod_cast Int.emod_nonneg _ (by norm_num)
      have hden : (0 : ℚ) ≤ ((((l : Int) - c) % 2 ^ 64 : Int) : ℚ) := by
        exact_mod_cast Int.emod_nonneg _ (by norm_num)
      have hrate := div_nonneg hnum hden
      have hg : genBool
          (min ((((((d : Int) - s) % 2 ^ 64 : Int)) : ℚ) /
            (((((l : Int) - c) % 2 ^ 64 : Int)) : ℚ)) 1) rng =
          some (sampleBool
            (min ((((((d : Int) - s) % 2 ^ 64 : Int)) : ℚ) /
              (((((l : Int) - c) % 2 ^ 64 : Int)) : ℚ)) 1) rng) := by
        unfold genBool
        rw [if_pos ⟨le_min hrate zero_le_one, min_le_right _ 1⟩]
      rcases hsb : sampleBool
          (min ((((((d : Int) - s) % 2 ^ 64 : Int)) : ℚ) /
            (((((l : Int) - c) % 2 ^ 64 : Int)) : ℚ)) 1) rng with ⟨bb, rr⟩
      have hg2 : genBool
          (min ((((((d : Int) - s) % 2 ^ 64 : Int)) : ℚ) /
            (((((l : Int) - c) % 2 ^ 64 : Int)) : ℚ)) 1) rng =
          some (bb, rr) := by rw [hg, hsb]
      refine ⟨(if bb then s + 1 else s) % 2 == 1,
        .kpoint c l (if bb then s + 1 else s) d, rr, ?_, trivial⟩
      show shouldFlip (.kpoint c l s d) rng = _
      unfold shouldFlip
      dsimp only
      rw [if_pos hcl]
      rw [hg2]
    · refine ⟨s % 2 == 1, .kpoint c l s d, rng, ?_, trivial⟩
      show shouldFlip (.kpoint c l s d) rng = _
      unfold shouldFlip
      dsimp only
      rw [if_neg hcl]
  | fixed b => exact ⟨b, .fixed b, rng, rfl, trivial⟩

/-- C1: the claim states that each K-point leaf visit increments
`swapped` with probability `p = (desired - swapped) / (length - count)`
and then sets `count += 1`.  On the code, `count` is never incremented:
`should_flip` binds it mutably and uses it in the guard and the
denominator, but no `count += 1` exists, so after every visit the
`count` field still holds its previous value. -/
theorem shouldFlip_kpoint_count_constant (c l s d : Nat) (rng : Rng) :
    (shouldFlip (.kpoint c l s d) rng).map (fun out => countOf out.2.1) =
      some c := by
  by_cases hcl : c < l
  · have hnum : (0 : ℚ) ≤ ((((d : Int) - s) % 2 ^ 64 : Int) : ℚ) := by
      exact_mod_cast Int.emod_nonneg _ (by norm_num)
    have hden : (0 : ℚ) ≤ ((((l : Int) - c) % 2 ^ 64 : Int) : ℚ) := by
      exact_mod_cast Int.emod_nonneg _ (by norm_num)
    have hrate := div_nonneg hnum hden
    have hg : genBool
        (min ((((((d : Int) - s) % 2 ^ 64 : Int)) : ℚ) /
          (((((l : Int) - c) % 2 ^ 64 : Int)) : ℚ)) 1) rng =
        some (sampleBool
          (min ((((((d : Int) - s) % 2 ^ 64 : Int)) : ℚ) /
            (((((l : Int) - c) % 2 ^ 64 : Int)) : ℚ)) 1) rng) := by
      unfold genBool
      rw [if_pos ⟨le_min hrate zero_le_one, min_le_right _ 1⟩]
    rcases hsb : sampleBool
        (min ((((((d : Int) - s) % 2 ^ 64 : Int)) : ℚ) /
          (((((l : Int) - c) % 2 ^ 64 : Int)) : ℚ)) 1) rng with ⟨bb, rr⟩
    have hg2 : genBool
        (min ((((((d : Int) - s) % 2 ^ 64 : Int)) : ℚ) /
          (((((l : Int) - c) % 2 ^ 64 : Int)) : ℚ)) 1) rng =
        some (bb, rr) := by rw [hg, hsb]
    show (shouldFlip (.kpoint c l s d) rng).map (fun out => countOf out.2.1) =
      some c
    unfold shouldFlip
    dsimp only
    rw [if_pos hcl]
    rw [hg2]
    rfl
  · show (shouldFlip (.kpoint c l s d) rng).map (fun out => countOf out.2.1) =
      some c
    unfold shouldFlip
    dsimp only
    rw [if_neg hcl]
    rfl

mutual

theorem crossoverGo_fixed (a b : Genome) (f : Bool) (rng : Rng)
    (h : sameShape a b = true) :
    crossoverGo a b (.fixed f) rng =
      some (if f then b else a, if f then a else b, .fixed f, rng) := by
  cases a with
  | leaf v =>
    cases b with
    | leaf u => cases f <;> rfl
    | seq hs => simp [sameShape] at h
    | group g => simp [sameShape] at h
  | seq gs =>
    cases b with
    | leaf u => simp [sameShape] at h
    | seq hs =>
      have hl := crossoverList_fixed gs hs f rng (by simpa [sameShape] using h)
      show (match crossoverList gs hs (.fixed f) rng with
        | none => none
        | some (gs', hs', st', rng') =>
          some (Genome.seq gs', Genome.seq hs', st', rng')) = _
      rw [hl]
      cases f <;> rfl
    | group g => simp [sameShape] at h
  | group g =>
    cases b with
    | leaf u => simp [sameShape] at h
    | seq hs => simp [sameShape] at h
    | group g' =>
      have hg := crossoverGo_fixed g g' f rng (by simpa [sameShape] using h)
      show (match shouldFlip (.fixed f) rng with
        | none => none
        | some (f', st', rng₁) =>
          match crossoverGo g g' (.fixed f') rng₁ with
          | none => none
          | some (a', b', _, rng₂) =>
            some (Genome.group a', Genome.group b', st', rng₂)) = _
      rw [show shouldFlip (.fixed f) rng = some (f, .fixed f, rng) from rfl]
      dsimp only
      rw [hg]
      cases f <;> rfl

theorem crossoverList_fixed (gs hs : List Genome) (f : Bool) (rng : Rng)
    (h : sameShapeList gs hs = true) :
    crossoverList gs hs (.fixed f) rng =
      some (if f then hs else gs, if f then gs else hs, .fixed f, rng) := by
  cases gs with
  | nil =>
    cases hs with
    | nil => cases f <;> rfl
    | cons h' hs' => simp [sameShapeList] at h
  | cons g gs' =>
    cases hs with
    | nil => simp [sameShapeList] at h
    | cons h' hs' =>
      have hsh : sameShape g h' = true ∧ sameShapeList gs' hs' = true := by
        simpa [sameShapeList, Bool.and_eq_true] using h
      have h1 := crossoverGo_fixed g h' f rng hsh.1
      have h2 := crossoverList_fixed gs' hs' f rng hsh.2
      show (match crossoverGo g h' (.fixed f) rng with
        | none => none
        | some (g', h'', st', rng') =>
          match crossoverList gs' hs' st' rng' with
          | none => none
          | some (gs'', hs'', st'', rng'') =>
            some (g' :: gs'', h'' :: hs'', st'', rng'')) = _
      rw [h1]
      dsimp only
      rw [h2]
      cases f <;> rfl

end

mutual

theorem crossoverGo_total (a b : Genome) (st : CrossoverState) (rng : Rng)
    (h : stateValid st) :
    ∃ out, crossoverGo a b st rng = some out ∧ stateValid out.2.2.1 := by
  cases a with
  | leaf v =>
    cases b with
    | leaf u =>
      obtain ⟨f, st', rng', heq, hval⟩ := shouldFlip_valid_some st rng h
      refine ⟨if f then (.leaf u, .leaf v, st', rng')
        else (.leaf v, .leaf u, st', rng'), ?_, ?_⟩
      · show (match shouldFlip st rng with
          | none => none
          | some (f, st', rng') =>
            if f then some (Genome.leaf u, Genome.leaf v, st', rng')
            else some (Genome.leaf v, Genome.leaf u, st', rng')) = _
        rw [heq]
        cases f <;> rfl
      · cases f <;> exact hval
    | seq hs => exact ⟨(.leaf v, .seq hs, st, rng), rfl, h⟩
    | group g => exact ⟨(.leaf v, .group g, st, rng), rfl, h⟩
  | seq gs =>
    cases b with
    | leaf u => exact ⟨(.seq gs, .leaf u, st, rng), rfl, h⟩
    | seq hs =>
      obtain ⟨out, heq, hval⟩ := crossoverList_total gs hs st rng h
      obtain ⟨gs', hs', st', rng'⟩ := out
      refine ⟨(.seq gs', .seq hs', st', rng'), ?_, hval⟩
      show (match crossoverList gs hs st rng with
        | none => none
        | some (gs', hs', st', rng') =>
          some (Genome.seq gs', Genome.seq hs', st', rng')) = _
      rw [heq]
    | group g => exact ⟨(.seq gs, .group g, st, rng), rfl, h⟩
  | group g =>
    cases b with
    | leaf u => exact ⟨(.group g, .leaf u, st, rng), rfl, h⟩
    | seq hs => exact ⟨(.group g, .seq hs, st, rng), rfl, h⟩
    | group g' =>
      obtain ⟨f, st', rng₁, heq, hval⟩ := shouldFlip_valid_some st rng h
      obtain ⟨out, heqi, -⟩ :=
        crossoverGo_total g g' (.fixed f) rng₁ trivial
      obtain ⟨a', b', sti, rng₂⟩ := out
      refine ⟨(.group a', .group b', st', rng₂), ?_, hval⟩
      show (match shouldFlip st rng with
        | none => none
        | some (f, st', rng₁) =>
          match crossoverGo g g' (.fixed f) rng₁ with
          | none => none
          | some (a', b', _, rng₂) =>
            some (Genome.group a', Genome.group b', st', rng₂)) = _
      rw [heq]
      dsimp only
      rw [heqi]

theorem crossoverList_total (gs hs : List Genome) (st : CrossoverState)
    (rng : Rng) (h : stateValid st) :
    ∃ out, crossoverList gs hs st rng = some out ∧ stateValid out.2.2.1 := by
  cases gs with
  | nil => exact ⟨([], hs, st, rng), rfl, h⟩
  | cons g gs' =>
    cases hs with
    | nil => exact ⟨(g :: gs', [], st, rng), rfl, h⟩
    | cons h' hs' =>
      obtain ⟨out₁, heq₁, hval₁⟩ := crossoverGo_total g h' st rng h
      obtain ⟨g'', h'', st₁, rng₁⟩ := out₁
      obtain ⟨out₂, heq₂, hval₂⟩ := crossoverList_total gs' hs' st₁ rng₁ hval₁
      obtain ⟨gs'', hs'', st₂, rng₂⟩ := out₂
      refine ⟨(g'' :: gs'', h'' :: hs'', st₂, rng₂), ?_, hval₂⟩
      show (match crossoverGo g h' st rng with
        | none => none
        | some (g', h'', st', rng') =>
          match crossoverList gs' hs' st' rng' with
          | none => none
          | some (gs'', hs'', st'', rng'') =>
            some (g' :: gs'', h'' :: hs'', st'', rng'')) = _
      rw [heq₁]
      dsimp only
      rw [heq₂]

end

/-- C3 counterexample: the claim asserts that a crossover call on two
individuals with differing `size_hint()` never raises an error in any
build.  In builds with debug assertions enabled, the
`debug_assert_eq!` of the `crossover` entry point fails on a size-hint
mismatch: here a 1-leaf against a 2-leaf individual aborts (`none`)
before any traversal. -/
theorem crossoverFn_debug_mismatch_cex :
    crossoverFn true (.seq [.leaf 0]) (.seq [.leaf 1, .leaf 2])
      (.uniform 1) rng0 = none := rfl

/-- C3 (amended): in builds with debug assertions disabled, a crossover
call never raises an error for a size-hint mismatch and proceeds to
completion for every pair of individuals, every RNG and every method
whose `gen_bool` probability is valid (any `KPoint`, and `Uniform(rate)`
with `rate / 2` in `[0, 1]`).  Only the debug-assertion build detects
the mismatch. -/
theorem crossoverFn_release_total (l r : Genome) (m : CrossoverMethod)
    (rng : Rng) (h : methodValid m) :
    ∃ out, crossoverFn false l r m rng = some out := by
  have hval : stateValid (methodToState m l.sizeHint) := by
    cases m with
    | uniform rate => exact h
    | kpoint k => trivial
  obtain ⟨out, heq, -⟩ :=
    crossoverGo_total l r (methodToState m l.sizeHint) rng hval
  obtain ⟨l', r', st', rng'⟩ := out
  refine ⟨(l', r', rng'), ?_⟩
  unfold crossoverFn
  rw [if_neg (by simp)]
  rw [heq]

/-- Witness for C3 at a concrete input: the same mismatched pair as the
counterexample completes in a release build. -/
theorem crossoverFn_release_total_witness :
    methodValid (.uniform 1) ∧
      ∃ out, crossoverFn false (.seq [.leaf 0]) (.seq [.leaf 1, .leaf 2])
        (.uniform 1) rng0 = some out :=
  ⟨⟨by norm_num, by norm_num⟩,
    crossoverFn_release_total (.seq [.leaf 0]) (.seq [.leaf 1, .leaf 2])
      (.uniform 1) rng0 ⟨by norm_num, by norm_num⟩⟩

/-- C6: `Crossover::group` draws exactly one swap decision from the
enclosing policy, advances the outer session's state by exactly that one
`should_flip` step, and applies the fixed decision atomically to the
whole grouped subtree: when the decision is `true` the two (same-shaped)
subtrees are exchanged wholesale, otherwise both are left untouched —
no partial swap can occur, and the nested `Fixed` session consumes no
randomness. -/
theorem crossoverGo_group_atomic (ga gb : Genome) (st : CrossoverState)
    (rng : Rng) (h : sameShape ga gb = true) :
    crossoverGo (.group ga) (.group gb) st rng =
      (shouldFlip st rng).map (fun out =>
        (.group (if out.1 then gb else ga), .group (if out.1 then ga else gb),
          out.2.1, out.2.2)) := by
  show (match shouldFlip st rng with
    | none => none
    | some (f, st', rng₁) =>
      match crossoverGo ga gb (.fixed f) rng₁ with
      | none => none
      | some (a', b', _, rng₂) =>
        some (Genome.group a', Genome.group b', st', rng₂)) = _
  cases hsf : shouldFlip st rng with
  | none => rfl
  | some out =>
    obtain ⟨f, st', rng₁⟩ := out
    dsimp only
    rw [crossoverGo_fixed ga gb f rng₁ h]
    cases f <;> rfl

/-- Witness for C6 at a concrete input: two one-leaf groups under the
uniform policy. -/
theorem crossoverGo_group_atomic_witness :
    sameShape (.leaf 0) (.leaf 1) = true ∧
      crossoverGo (.group (.leaf 0)) (.group (.leaf 1)) (.uniform 1) rng0 =
        (shouldFlip (.uniform 1) rng0).map (fun out =>
          (.group (if out.1 then .leaf 1 else .leaf 0),
            .group (if out.1 then .leaf 0 else .leaf 1),
            out.2.1, out.2.2)) :=
  ⟨rfl, crossoverGo_group_atomic (.leaf 0) (.leaf 1) (.uniform 1) rng0 rfl⟩

mutual

theorem crossoverGo_multiset (a b : Genome) (st : CrossoverState) (rng : Rng) :
    ∀ out, crossoverGo a b st rng = some out →
      Multiset.ofList out.1.leaves + Multiset.ofList out.2.1.leaves =
        Multiset.ofList a.leaves + Multiset.ofList b.leaves := by
  intro out hout
  cases a with
  | leaf v =>
    cases b with
    | leaf u =>
      revert hout
      show (match shouldFlip st rng with
        | none => none
        | some (f, st', rng') =>
          if f then some (Genome.leaf u, Genome.leaf v, st', rng')
          else some (Genome.leaf v, Genome.leaf u, st', rng')) = some out → _
      intro hout
      cases hsf : shouldFlip st rng with
      | none => rw [hsf] at hout; cases hout
      | some pr =>
        rw [hsf] at hout
        obtain ⟨f, st', rng'⟩ := pr
        dsimp only at hout
        cases f with
        | true =>
          rw [if_pos rfl] at hout
          cases hout
          exact add_comm _ _
        | false =>
          rw [if_neg (by simp)] at hout
          cases hout
          rfl
    | seq hs => cases hout; rfl
    | group g => cases hout; rfl
  | seq gs =>
    cases b with
    | leaf u => cases hout; rfl
    | seq hs =>
      revert hout
      show (match crossoverList gs hs st rng with
        | none => none
        | some (gs', hs', st', rng') =>
          some (Genome.seq gs', Genome.seq hs', st', rng')) = some out → _
      intro hout
      cases hcl : crossoverList gs hs st rng with
      | none => rw [hcl] at hout; cases hout
      | some pr =>
        rw [hcl] at hout
        obtain ⟨gs', hs', st', rng'⟩ := pr
        cases hout
        exact crossoverList_multiset gs hs st rng (gs', hs', st', rng') hcl
    | group g => cases hout; rfl
  | group g =>
    cases b with
    | leaf u => cases hout; rfl
    | seq hs => cases hout; rfl
    | group g' =>
      revert hout
      show (match shouldFlip st rng with
        | none => none
        | some (f, st', rng₁) =>
          match crossoverGo g g' (.fixed f) rng₁ with
          | none => none
          | some (a', b', _, rng₂) =>
            some (Genome.group a', Genome.group b', st', rng₂)) = some out → _
      intro hout
      cases hsf : shouldFlip st rng with
      | none => rw [hsf] at hout; cases hout
      | some pr =>
        rw [hsf] at hout
        obtain ⟨f, st', rng₁⟩ := pr
        dsimp only at hout
        cases hcg : crossoverGo g g' (.fixed f) rng₁ with
        | none => rw [hcg] at hout; cases hout
        | some pri =>
          rw [hcg] at hout
          obtain ⟨a', b', sti, rng₂⟩ := pri
          cases hout
          exact crossoverGo_multiset g g' (.fixed f) rng₁
            (a', b', sti, rng₂) hcg

theorem crossoverList_multiset (gs hs : List Genome) (st : CrossoverState)
    (rng : Rng) :
    ∀ out, crossoverList gs hs st rng = some out →
      Multiset.ofList (leavesList out.1) +
          Multiset.ofList (leavesList out.2.1) =
        Multiset.ofList (leavesList gs) + Multiset.ofList (leavesList hs) := by
  intro out hout
  cases gs with
  | nil => cases hout; rfl
  | cons g gs' =>
    cases hs with
    | nil => cases hout; rfl
    | cons h' hs' =>
      revert hout
      show (match crossoverGo g h' st rng with
        | none => none
        | some (g', h'', st', rng') =>
          match crossoverList gs' hs' st' rng' with
          | none => none
          | some (gs'', hs'', st'', rng'') =>
            some (g' :: gs'', h'' :: hs'', st'', rng'')) = some out → _
      intro hout
      cases hcg : crossoverGo g h' st rng with
      | none => rw [hcg] at hout; cases hout
      | some pr =>
        rw [hcg] at hout
        obtain ⟨g'', h'', st₁, rng₁⟩ := pr
        dsimp only at hout
        cases hcl : crossoverList gs' hs' st₁ rng₁ with
        | none => rw [hcl] at hout; cases hout
        | some pr₂ =>
          rw [hcl] at hout
          obtain ⟨gs'', hs'', st₂, rng₂⟩ := pr₂
          cases hout
          have h1 := crossoverGo_multiset g h' st rng (g'', h'', st₁, rng₁) hcg
          have h2 := crossoverList_multiset gs' hs' st₁ rng₁
            (gs'', hs'', st₂, rng₂) hcl
          show Multiset.ofList (Genome.leaves g'' ++ leavesList gs'') +
              Multiset.ofList (Genome.leaves h'' ++ leavesList hs'') = _
          simp only [← Multiset.coe_add]
          dsimp only [Genome.leaves] at h1
          rw [add_add_add_comm, h1, h2, add_add_add_comm]
          simp only [leavesList, ← Multiset.coe_add]

end

/-- C7: for every pair of individuals, every crossover method, both
assertion settings and every RNG, a completed `crossover` call (the step
`reproduce` performs on the cloned parents before mutating them) only
exchanges whole leaves between the two individuals: the combined
multiset of the two resulting leaf lists equals the combined multiset of
the two input leaf lists. -/
theorem crossoverFn_multiset (da : Bool) (l r : Genome)
    (m : CrossoverMethod) (rng : Rng) :
    ∀ out, crossoverFn da l r m rng = some out →
      Multiset.ofList out.1.leaves + Multiset.ofList out.2.1.leaves =
        Multiset.ofList l.leaves + Multiset.ofList r.leaves := by
  intro out hout
  unfold crossoverFn at hout
  split at hout
  · cases hout
  · cases hcg : crossoverGo l r (methodToState m l.sizeHint) rng with
    | none => rw [hcg] at hout; cases hout
    | some pr =>
      rw [hcg] at hout
      obtain ⟨l', r', st', rng'⟩ := pr
      cases hout
      exact crossoverGo_multiset l r (methodToState m l.sizeHint) rng
        (l', r', st', rng') hcg

/-- Witness for C7 at a concrete input: `Uniform(2)` flips every leaf
(probability `2/2 = 1`), exchanging the two sequences wholesale. -/
theorem crossoverFn_multiset_witness :
    Multiset.ofList (Genome.seq [.leaf 3, .leaf 4]).leaves +
        Multiset.ofList (Genome.seq [.leaf 1, .leaf 2]).leaves =
      Multiset.ofList (Genome.seq [.leaf 1, .leaf 2]).leaves +
        Multiset.ofList (Genome.seq [.leaf 3, .leaf 4]).leaves :=
  crossoverFn_multiset false (.seq [.leaf 1, .leaf 2])
    (.seq [.leaf 3, .leaf 4]) (.uniform 2) rng0
    (.seq [.leaf 3, .leaf 4], .seq [.leaf 1, .leaf 2], ⟨fun _ => 0, 2⟩)
    (by norm_num [crossoverFn, methodToState, Genome.sizeHint, sizeHintList,
      crossoverGo, crossoverList, shouldFlip, genBool, sampleBool, rng0,
      Rng.next])

/-- C2: the claim states that `mutate(x, 0.0, rng)` returns normally and
leaves every scalar chromosome unchanged.  For the floating-point
uniform-walk chromosomes this is false on the code: at rate `0` the
sampling window always degenerates to an empty half-open range, and
`gen_range` panics on it.  This theorem shows the embedded float mutate
fails (returns `none`, modelling the panic) for every bound pair, every
current value and every RNG. -/
theorem uniformFloatMutate_rate_zero_panics (minB maxB value : ℚ) (rng : Rng) :
    uniformFloatMutate minB maxB value 0 rng = none := by
  unfold uniformFloatMutate genRangeQ
  simp only [mul_zero, zero_div]
  rcases lt_or_le (value - minB) 0 with h1 | h1
  · simp only [if_pos h1]
    have : ¬ minB < minB + 0 := by simp
    simp [this]
  · rw [if_neg (not_lt.mpr h1)]
    rcases lt_or_le (maxB - value) 0 with h2 | h2
    · simp only [if_pos h2]
      have : ¬ maxB - 0 < maxB := by simp
      simp [this]
    · rw [if_neg (not_lt.mpr h2)]
      have : ¬ max (value - 0) minB < min (value + 0) maxB := by
        simp only [sub_zero, add_zero, not_lt]
        exact le_trans (min_le_left _ _) (le_max_left _ _)
      simp [this]

/-- C9: `Mutator::multiply_rate(factor, callback)` runs the callback on
the session whose rate has been set to `clamp(rate * factor, 0, 1)`, and
once the callback returns, the session's rate is exactly the rate it had
before the call — for every starting session, every factor and every
callback. -/
theorem multiplyRate_frame (m : Mutator) (factor : ℚ) (cb : Mutator → Mutator) :
    (m.multiplyRate factor cb).rate = m.rate ∧
      m.multiplyRate factor cb =
        { cb { m with rate := min (max (m.rate * factor) 0) 1 } with
            rate := m.rate } :=
  ⟨rfl, rfl⟩

/-- C10: applying the reorder wrapper to a one-element collection with
any positive rate panics (the forced single swap draws the second index
from the empty range `0..0`), while the empty collection is explicitly
guarded and returns unchanged. -/
theorem reorderMutate_singleton_panics (x : Int) (rate : ℚ) (rng : Rng)
    (h : 0 < rate) :
    reorderMutate [x] rate rng = none ∧
      reorderMutate ([] : List Int) rate rng = some ([], rng) := by
  constructor
  · have hrate : (0 : ℚ) < rate := h
    simp only [reorderMutate, List.length_singleton, Nat.cast_one, sub_self,
      zero_mul, ratToUsize]
    norm_num [hrate, reorderSwaps, swapStep, genRangeNat, Rng.next]
  · simp [reorderMutate]

/-- Witness for C10 at a concrete input. -/
theorem reorderMutate_singleton_panics_witness :
    (0 : ℚ) < 1 / 2 ∧
      (reorderMutate [(5 : Int)] (1 / 2) rng0 = none ∧
        reorderMutate ([] : List Int) (1 / 2) rng0 = some ([], rng0)) :=
  ⟨by norm_num, reorderMutate_singleton_panics 5 (1 / 2) rng0 (by norm_num)⟩

/-- C8 counterexample: the claim asserts the reorder wrapper, applied to
any collection with `n > 0` elements and positive rate, completes having
performed the computed number of transposition swaps and leaves the
multiset of elements unchanged.  At `n = 1` with rate `1/2`, the forced
single swap draws the second index from the empty range `0..0` and the
call panics (`none`) instead. -/
theorem reorderMutate_singleton_cex :
    reorderMutate [(5 : Int)] (1 / 2) rng0 = none := by
  norm_num [reorderMutate, ratToUsize, reorderSwaps, swapStep, genRangeNat,
    Rng.next]

/-- C8 (amended): for collections of `n ≥ 2` elements and rate in
`[0, 1]`, the reorder wrapper runs exactly
`floor((n-1) * rate)` transposition swaps — bumped to `1` when the rate
is positive and the floor is zero; every swap step exchanges the
contents of two distinct in-range indices; and any completed call leaves
the multiset of elements unchanged.  (The original claim's `n > 0` fails
at `n = 1` with positive rate, which panics; see the counterexample.) -/
theorem reorderMutate_spec {α : Type} (l : List α) (rate : ℚ) (rng : Rng)
    (h2 : 2 ≤ l.length) (h0 : 0 ≤ rate) (h1 : rate ≤ 1) :
    reorderMutate l rate rng =
        reorderSwaps
          (if 0 < rate ∧ ⌊((l.length : ℚ) - 1) * rate⌋₊ = 0 then 1
            else ⌊((l.length : ℚ) - 1) * rate⌋₊) l rng ∧
      (∀ (s : List α) (r : Rng), 2 ≤ s.length →
        ∃ i j r', i < j ∧ j < s.length ∧
          swapStep s r = some (listSwap s i j, r')) ∧
      (∀ out, reorderMutate l rate rng = some out →
        Multiset.ofList out.1 = Multiset.ofList l) := by
  have hlen : l.length ≠ 0 := by omega
  refine ⟨?_, fun s r hs => swapStep_two s r hs, ?_⟩
  · simp only [reorderMutate, hlen, if_false, ratToUsize_eq_natFloor]
  · intro out hout
    simp only [reorderMutate, hlen, if_false] at hout
    obtain ⟨l', rng'⟩ := out
    exact reorderSwaps_multiset _ l l' rng rng' hout

theorem genRangeInclusive_bounds {lo hi : Int} {r : Rng} {out : Int × Rng}
    (h : genRangeInclusive lo hi r = some out) : lo ≤ out.1 ∧ out.1 ≤ hi := by
  unfold genRangeInclusive at h
  split at h
  next hle =>
    simp only [Rng.next, Option.some.injEq] at h
    have h0 : (0 : Int) ≤ (r.stream r.idx : Int) % (hi - lo + 1) :=
      Int.emod_nonneg _ (by omega)
    have h1 : (r.stream r.idx : Int) % (hi - lo + 1) < hi - lo + 1 :=
      Int.emod_lt_of_pos _ (by omega)
    rw [← h]
    constructor <;> simp <;> omega
  next => cases h

/-- C4: for every integer uniform-walk chromosome with bounds
`min ≤ max` and every rate in `[0, 1]`, any completed `mutate` call
returns a value `v` with `min ≤ v ≤ max`.  The embedding covers both the
deprecated embedded-value `UniformCh` chromosome and the bounds-only
wrapper, whose mutation bodies are identical. -/
theorem uniformIntMutate_bounds (t : IntTy) (minB maxB value : Int)
    (rate : ℚ) (rng : Rng) (hminmax : minB ≤ maxB) (h0 : 0 ≤ rate)
    (h1 : rate ≤ 1) :
    ∀ out, uniformIntMutate t minB maxB value rate rng = some out →
      minB ≤ out.1 ∧ out.1 ≤ maxB := by
  intro out hout
  unfold uniformIntMutate at hout
  rw [if_pos hminmax] at hout
  dsimp only at hout
  split at hout
  · have h := genRangeInclusive_bounds hout
    exact ⟨h.1, le_trans h.2 (min_le_right _ _)⟩
  · split at hout
    · have h := genRangeInclusive_bounds hout
      exact ⟨le_trans (le_max_right _ _) h.1, h.2⟩
    · have h := genRangeInclusive_bounds hout
      exact ⟨le_trans (le_max_right _ _) h.1, le_trans h.2 (min_le_right _ _)⟩

/-- Witness for C4 at a concrete input: an `i8`-typed chromosome with
bounds `[-5, 5]`, value `3`, rate `1/2`. -/
theorem uniformIntMutate_bounds_witness :
    (-5 : Int) ≤ 0 ∧ (0 : Int) ≤ 5 :=
  uniformIntMutate_bounds ⟨-128, 127⟩ (-5) 5 3 (1 / 2) rng0 (by decide)
    (by norm_num) (by norm_num) (0, ⟨fun _ => 0, 1⟩)
    (by norm_num [uniformIntMutate, IntTy.wrap, IntTy.card, IntTy.castSat,
      IntTy.satAdd, IntTy.satSub, ratTrunc, genRangeInclusive, Rng.next, rng0,
      show Int.tdiv 5 2 = 2 by decide, show Int.tmod 5 2 = 1 by decide])

theorem xor_high_preserved (u i k : Nat) (hik : i < k) :
    (u ^^^ 2 ^ i) / 2 ^ k = u / 2 ^ k := by
  rw [← Nat.shiftRight_eq_div_pow, ← Nat.shiftRight_eq_div_pow]
  apply Nat.eq_of_testBit_eq
  intro j
  rw [Nat.testBit_shiftRight, Nat.testBit_shiftRight, Nat.testBit_xor,
    Nat.testBit_two_pow]
  have hne : i ≠ k + j := by omega
  simp [hne]

theorem block_of_div (x c : Nat) (hc : 0 < c) :
    x / c * c ≤ x ∧ x < x / c * c + c := by
  refine ⟨Nat.div_mul_le_self x c, ?_⟩
  conv_lhs => rw [← Nat.div_add_mod' x c]
  exact Nat.add_lt_add_left (Nat.mod_lt x hc) _

theorem xorBit_mem (w k : Nat) (v : Int) (i : Nat) (hkw : k < w) (hik : i < k)
    (hlo : -(2 ^ k : Int) ≤ v) (hhi : v ≤ 2 ^ k - 1) :
    -(2 ^ k : Int) ≤ xorBit w v i ∧ xorBit w v i ≤ 2 ^ k - 1 := by
  have hpk : ((2 ^ k : Nat) : Int) = (2 : Int) ^ k := by push_cast; ring
  have hpw : ((2 ^ w : Nat) : Int) = (2 : Int) ^ w := by push_cast; ring
  have hpw1 : ((2 ^ (w - 1) : Nat) : Int) = (2 : Int) ^ (w - 1) := by
    push_cast; ring
  have hkw1 : (2 ^ k : Nat) ≤ 2 ^ (w - 1) :=
    Nat.pow_le_pow_right (by norm_num) (by omega)
  have hw2 : (2 ^ (w - 1) : Nat) * 2 = 2 ^ w := by
    rw [← pow_succ]; congr 1; omega
  have hiw : (2 ^ i : Nat) < 2 ^ k := Nat.pow_lt_pow_right (by norm_num) hik
  have hkpos : (0 : Nat) < 2 ^ k := Nat.pos_pow_of_pos _ (by norm_num)
  have hkwN : (2 ^ k : Nat) ≤ 2 ^ w :=
    Nat.pow_le_pow_right (by norm_num) (by omega)
  rcases le_or_lt 0 v with hv | hv
  · -- nonnegative case: the pattern sits in `[0, 2^k)`
    have hvw : v % (2 : Int) ^ w = v :=
      Int.emod_eq_of_lt hv (by omega)
    have hu : toUnsigned w v = v.toNat := by
      unfold toUnsigned
      rw [hvw]
    have huk : v.toNat < 2 ^ k := by omega
    have hu' : v.toNat ^^^ 2 ^ i < 2 ^ k := Nat.xor_lt_two_pow huk hiw
    have hxb : xorBit w v i = ((v.toNat ^^^ 2 ^ i : Nat) : Int) := by
      unfold xorBit ofUnsigned
      rw [hu, if_pos (by omega)]
    rw [hxb]
    omega
  · -- negative case: the pattern sits in `[2^w - 2^k, 2^w)`
    have hvm : v % (2 : Int) ^ w = v + (2 : Int) ^ w := by
      have h1 := Int.add_mul_emod_self_left (a := v) (b := (2 : Int) ^ w)
        (c := 1)
      rw [mul_one] at h1
      rw [← h1]
      exact Int.emod_eq_of_lt (by omega) (by omega)
    have huI : (toUnsigned w v : Int) = v + (2 : Int) ^ w := by
      unfold toUnsigned
      rw [hvm]
      exact Int.toNat_of_nonneg (by omega)
    set u := toUnsigned w v with hudef
    have hu_lb : (2 ^ w : Nat) - 2 ^ k ≤ u := by omega
    have hu_ub : u < 2 ^ w := by omega
    have hsplit : (2 ^ (w - k) : Nat) * 2 ^ k = 2 ^ w := by
      rw [← pow_add]; congr 1; omega
    have hApos : (0 : Nat) < 2 ^ (w - k) := Nat.pos_pow_of_pos _ (by norm_num)
    have hAm : (2 ^ (w - k) - 1 : Nat) * 2 ^ k = 2 ^ w - 2 ^ k := by
      rw [Nat.sub_mul, one_mul, hsplit]
    have hA : u / 2 ^ k = 2 ^ (w - k) - 1 := by
      apply Nat.div_eq_of_lt_le
      · rw [hAm]; omega
      · have hs : (2 ^ (w - k) - 1 + 1 : Nat) = 2 ^ (w - k) := by omega
        rw [hs, hsplit]; exact hu_ub
    have hh : (u ^^^ 2 ^ i) / 2 ^ k = 2 ^ (w - k) - 1 := by
      rw [xor_high_preserved u i k hik, hA]
    have hblock := block_of_div (u ^^^ 2 ^ i) (2 ^ k) hkpos
    rw [hh, hAm] at hblock
    have hxb : xorBit w v i = ((u ^^^ 2 ^ i : Nat) : Int) - (2 : Int) ^ w := by
      unfold xorBit
      rw [← hudef]
      unfold ofUnsigned
      rw [if_neg (by omega)]
    rw [hxb]
    omega

theorem flipBits_mem (w k : Nat) (p : ℚ) (hkw : k < w) :
    ∀ (is : List Nat) (v : Int) (rng : Rng), (∀ i ∈ is, i < k) →
      -(2 ^ k : Int) ≤ v → v ≤ 2 ^ k - 1 →
      -(2 ^ k : Int) ≤ (flipBits w p is v rng).1 ∧
        (flipBits w p is v rng).1 ≤ 2 ^ k - 1 := by
  intro is
  induction is with
  | nil =>
    intro v rng _ h1 h2
    exact ⟨h1, h2⟩
  | cons i rest ih =>
    intro v rng hmem h1 h2
    show -(2 ^ k : Int) ≤
        (flipBits w p rest
          (if (sampleBool p rng).1 then xorBit w v i else v)
          (sampleBool p rng).2).1 ∧ _
    apply ih _ _ (fun j hj => hmem j (List.mem_cons_of_mem _ hj))
    · split
      · exact (xorBit_mem w k v i hkw (hmem i (List.mem_cons_self _ _)) h1
          h2).1
      · exact h1
    · split
      · exact (xorBit_mem w k v i hkw (hmem i (List.mem_cons_self _ _)) h1
          h2).2
      · exact h2

/-- C5: for every signed `FixedBits` chromosome with `1 ≤ bits < w`
(`w` the native width) and every rate in `[0, 1]`, the `mutate` call
completes and leaves the stored value inside the conceptual `bits`-wide
two's-complement range `[-2^(bits-1), 2^(bits-1) - 1]`, whatever value
was stored before the call.  Covers the chromosome and the wrapper
variant, whose mutation bodies are identical. -/
theorem fixedBitsMutateSigned_bounds (w bits : Nat) (value : Int) (rate : ℚ)
    (rng : Rng) (hb : 1 ≤ bits) (hw : bits < w) (h0 : 0 ≤ rate)
    (h1 : rate ≤ 1) :
    ∃ v' rng', fixedBitsMutateSigned w bits value rate rng = some (v', rng') ∧
      -(2 ^ (bits - 1) : Int) ≤ v' ∧ v' ≤ 2 ^ (bits - 1) - 1 := by
  have hp0 : (0 : ℚ) ≤ rate * (1 / 2) := by positivity
  have hp1 : rate * (1 / 2) ≤ 1 := by nlinarith
  have hne : bits ≠ w := Nat.ne_of_lt hw
  have hd : (0 : Int) < 2 ^ (bits - 1) := pow_pos (by norm_num) _
  unfold fixedBitsMutateSigned
  rw [if_pos ⟨hp0, hp1⟩]
  dsimp only
  rw [if_pos hne]
  have hv0lo : -(2 ^ (bits - 1) : Int) ≤
      max (-(2 ^ (bits - 1) : Int)) (min ((2 ^ (bits - 1) : Int) - 1) value) :=
    le_max_left _ _
  have hv0hi :
      max (-(2 ^ (bits - 1) : Int)) (min ((2 ^ (bits - 1) : Int) - 1) value) ≤
        2 ^ (bits - 1) - 1 :=
    max_le (by omega) (min_le_left _ _)
  have hfb := flipBits_mem w (bits - 1) (rate * (1 / 2)) (by omega)
    (List.range (bits - 1))
    (max (-(2 ^ (bits - 1) : Int)) (min ((2 ^ (bits - 1) : Int) - 1) value))
    rng (fun i hi => List.mem_range.mp hi) hv0lo hv0hi
  refine ⟨_, _, rfl, ?_⟩
  rw [if_neg hne]
  split
  · split
    · omega
    · omega
  · omega

/-- Witness for C5 at a concrete input: `w = 8`, `bits = 4`, stored
value `100` (out of range, clamped first), rate `1`. -/
theorem fixedBitsMutateSigned_bounds_witness :
    ∃ v' rng', fixedBitsMutateSigned 8 4 100 1 rng0 = some (v', rng') ∧
      -(2 ^ (4 - 1) : Int) ≤ v' ∧ v' ≤ 2 ^ (4 - 1) - 1 :=
  fixedBitsMutateSigned_bounds 8 4 100 1 rng0 (by decide) (by decide)
    (by norm_num) (by norm_num)

/-- Witness for C8 at a concrete input. -/
theorem reorderMutate_spec_witness :
    2 ≤ ([1, 2, 3] : List Int).length ∧ (0 : ℚ) ≤ 1 / 2 ∧ (1 : ℚ) / 2 ≤ 1 ∧
      (reorderMutate ([1, 2, 3] : List Int) (1 / 2) rng0 =
          reorderSwaps
            (if 0 < (1 / 2 : ℚ) ∧
                ⌊((([1, 2, 3] : List Int).length : ℚ) - 1) * (1 / 2)⌋₊ = 0 then 1
              else ⌊((([1, 2, 3] : List Int).length : ℚ) - 1) * (1 / 2)⌋₊)
            ([1, 2, 3] : List Int) rng0 ∧
        (∀ (s : List Int) (r : Rng), 2 ≤ s.length →
          ∃ i j r', i < j ∧ j < s.length ∧
            swapStep s r = some (listSwap s i j, r')) ∧
        (∀ out, reorderMutate ([1, 2, 3] : List Int) (1 / 2) rng0 = some out →
          Multiset.ofList out.1 = Multiset.ofList ([1, 2, 3] : List Int))) :=
  ⟨by norm_num, by norm_num, by norm_num,
    reorderMutate_spec [1, 2, 3] (1 / 2) rng0 (by norm_num) (by norm_num)
      (by norm_num)⟩

end Genomic
